import Mathlib

/-!
Verification of the line-delimited JSON TCP proxy (`proxy.py`).

The development shallowly embeds the proxy's data model and operations:

* `Json` — parsed JSON values as produced by `json.loads` (object fields in
  wire order; `json.loads` keeps at most one entry per key, which we track
  with the decidable predicate `nodupKeys`).
* `dumpsSorted` — the cache-key computation `json.dumps(req, sort_keys=True)`:
  serialization with object keys emitted in sorted order at every level,
  modelled as plain serialization (`render`) of the recursively
  key-sorted value (`sortKeys`).
* `LRUCache` — the `collections.OrderedDict`-based LRU cache of `proxy.py`
  (`get` / `set`), with the ordered dict modelled as an association list,
  front = oldest (next to be popped by `popitem(last=False)`),
  back = most recently used (`move_to_end`).
* `recvLine` — the incremental line framer `recv_line`, with the socket's
  successive `recv` results modelled as a list of byte chunks (an exhausted
  list, or an empty chunk, plays the role of `recv` returning `b''`).
* `requestCycle` — one iteration of the `handle_client` loop, with the
  outside world (JSON parsing outcomes, connect/send/read outcomes) supplied
  by a `CycleEnv` and the observable network actions returned as a trace.
-/

/-- Parsed JSON values (the result of `json.loads`).  Object fields are kept
in wire order, as Python dicts preserve insertion order.  Numbers are
modelled as integers; no claim in this development depends on numeric
serialization details. -/
inductive Json where
  | null : Json
  | bool (b : Bool) : Json
  | num (n : Int) : Json
  | str (s : String) : Json
  | arr (xs : List Json) : Json
  | obj (kvs : List (String × Json)) : Json

namespace Json

/-- Plain JSON serialization (field order as stored), matching Python's
default separators `", "` and `": "`. -/
def render : Json → String
  | .null => ("null")
  | .bool true => ("true")
  | .bool false => ("false")
  | .num n => toString n
  | .str s => ("\"") ++ s ++ ("\"")
  | .arr xs =>
      ("[") ++ String.intercalate (", ") (xs.attach.map (fun x => render x.1)) ++ ("]")
  | .obj kvs =>
      ("\x7b") ++
        String.intercalate (", ")
          (kvs.attach.map (fun p => ("\"") ++ p.1.1 ++ ("\": ") ++ render p.1.2)) ++
      ("\x7d")
decreasing_by
  · have := List.sizeOf_lt_of_mem x.2
    simp only [Json.arr.sizeOf_spec]
    omega
  · have h1 := List.sizeOf_lt_of_mem p.2
    have h2 : sizeOf p.1.2 < sizeOf p.1 := by
      obtain ⟨a, b⟩ := p.1
      simp only [Prod.mk.sizeOf_spec]
      omega
    simp only [Json.obj.sizeOf_spec]
    omega

/-- Ordering of object entries by key, as used by `sort_keys=True`. -/
def keyLE (p q : String × Json) : Prop := p.1 ≤ q.1

instance : DecidableRel keyLE := fun p q => inferInstanceAs (Decidable (p.1 ≤ q.1))

/-- Recursively sort every object's fields by key.  `json.dumps(v, sort_keys=True)`
produces the same text as plainly serializing `sortKeys v`. -/
def sortKeys : Json → Json
  | .null => .null
  | .bool b => .bool b
  | .num n => .num n
  | .str s => .str s
  | .arr xs => .arr (xs.attach.map (fun x => sortKeys x.1))
  | .obj kvs =>
      .obj (List.insertionSort keyLE (kvs.attach.map (fun p => (p.1.1, sortKeys p.1.2))))
decreasing_by
  · have := List.sizeOf_lt_of_mem x.2
    simp only [Json.arr.sizeOf_spec]
    omega
  · have h1 := List.sizeOf_lt_of_mem p.2
    have h2 : sizeOf p.1.2 < sizeOf p.1 := by
      obtain ⟨a, b⟩ := p.1
      simp only [Prod.mk.sizeOf_spec]
      omega
    simp only [Json.obj.sizeOf_spec]
    omega

/-- The cache-key computation of `handle_client`:
`cache_key = json.dumps(req, sort_keys=True)`. -/
def dumpsSorted (j : Json) : String := render (sortKeys j)

/-- Every object (at every nesting level) has pairwise-distinct keys.  This
holds of every value produced by `json.loads`, which keeps one entry per key. -/
def nodupKeys : Json → Bool
  | .null => true
  | .bool _ => true
  | .num _ => true
  | .str _ => true
  | .arr xs => xs.attach.all (fun x => nodupKeys x.1)
  | .obj kvs =>
      decide (kvs.map Prod.fst).Nodup &&
        kvs.attach.all (fun p => nodupKeys p.1.2)
decreasing_by
  · have := List.sizeOf_lt_of_mem x.2
    simp only [Json.arr.sizeOf_spec]
    omega
  · have h1 := List.sizeOf_lt_of_mem p.2
    have h2 : sizeOf p.1.2 < sizeOf p.1 := by
      obtain ⟨a, b⟩ := p.1
      simp only [Prod.mk.sizeOf_spec]
      omega
    simp only [Json.obj.sizeOf_spec]
    omega

mutual

/-- Equality of parsed requests as JSON values: identical field values with
object keys in any order, at every nesting level.  An object is equivalent
to any permutation of an object with the same keys and equivalent values. -/
inductive Equiv : Json → Json → Prop where
  | null : Equiv .null .null
  | bool (b : Bool) : Equiv (.bool b) (.bool b)
  | num (n : Int) : Equiv (.num n) (.num n)
  | str (s : String) : Equiv (.str s) (.str s)
  | arr {xs ys : List Json} : EquivList xs ys → Equiv (.arr xs) (.arr ys)
  | obj {kvs₁ kvs₂ kvs₃ : List (String × Json)} :
      EquivKVs kvs₁ kvs₃ → kvs₃.Perm kvs₂ → Equiv (.obj kvs₁) (.obj kvs₂)

/-- Pointwise `Equiv` on lists of values. -/
inductive EquivList : List Json → List Json → Prop where
  | nil : EquivList [] []
  | cons {x y : Json} {xs ys : List Json} :
      Equiv x y → EquivList xs ys → EquivList (x :: xs) (y :: ys)

/-- Pointwise key-preserving `Equiv` on lists of object entries. -/
inductive EquivKVs : List (String × Json) → List (String × Json) → Prop where
  | nil : EquivKVs [] []
  | cons {k : String} {v w : Json} {rest₁ rest₂ : List (String × Json)} :
      Equiv v w → EquivKVs rest₁ rest₂ →
      EquivKVs ((k, v) :: rest₁) ((k, w) :: rest₂)

end

end Json

/-- The `collections.OrderedDict` of `LRUCache`, as an association list:
head = oldest entry (the one `popitem(last=False)` removes),
last = most recently used (where `move_to_end` puts an entry). -/
structure LRUCache (V : Type) where
  capacity : Nat
  d : List (String × V)

namespace LRUCache

variable {V : Type}

/-- Dictionary lookup (`key in self._d` / `self._d[key]`). -/
def lookupD (d : List (String × V)) (k : String) : Option V :=
  match d with
  | [] => none
  | (k', v) :: rest => if k' = k then some v else lookupD rest k

/-- Remove the entry with the given key (the removal half of
`move_to_end` / re-insertion on an ordered dict with distinct keys). -/
def eraseKeyD (d : List (String × V)) (k : String) : List (String × V) :=
  d.filter (fun p => decide (p.1 ≠ k))

/-- The method `LRUCache.get`: absent keys return `None` and leave the dict untouched;
present keys are promoted to most-recently-used (`move_to_end`) and their
value is returned. -/
def get (c : LRUCache V) (k : String) : Option V × LRUCache V :=
  match lookupD c.d k with
  | none => (none, c)
  | some v => (some v, { c with d := eraseKeyD c.d k ++ [(k, v)] })

/-- The method `LRUCache.set`: `self._d[key] = value; self._d.move_to_end(key)`, then
`popitem(last=False)` if the size exceeds the capacity. -/
def set (c : LRUCache V) (k : String) (v : V) : LRUCache V :=
  let d1 := eraseKeyD c.d k ++ [(k, v)]
  if c.capacity < d1.length then { c with d := d1.tail } else { c with d := d1 }

end LRUCache

/-! ### The line framer `recv_line`

The byte stream delivered by the peer is modelled as the list of successive
non-empty `recv` results (`chunks`); once the list is exhausted — or when an
empty chunk is reached — every further `recv` returns `b''` (peer closed;
`recv_line` also maps socket exceptions to `b''`).  Bytes are `Nat`s; the
newline delimiter is byte `10`. -/

/-- One call to `recv_line sock buf`: loop appending `recv` chunks to the
buffer until it contains a newline, then split at the first newline and
retain the remainder.  Returns the line (without the newline), the new
buffer content, and the unconsumed chunks; `none` means closed-with-no-data. -/
def recvLine (buf : List Nat) (chunks : List (List Nat)) :
    Option (List Nat) × List Nat × List (List Nat) :=
  if 10 ∈ buf then
    (some (buf.takeWhile (fun b => b ≠ 10)), (buf.dropWhile (fun b => b ≠ 10)).drop 1, chunks)
  else
    match chunks with
    | [] => if buf = [] then (none, [], []) else (some buf, [], [])
    | c :: cs =>
      if c = [] then
        (if buf = [] then (none, [], cs) else (some buf, [], cs))
      else recvLine (buf ++ c) cs

/-- Repeatedly call `recvLine` (as the session loop does) and collect the
returned lines until closed-with-no-data is reported.  `fuel` bounds the
number of iterations; `framerMessages` supplies enough fuel. -/
def drainLines : Nat → List Nat → List (List Nat) → List (List Nat)
  | 0, _, _ => []
  | fuel + 1, buf, chunks =>
    match recvLine buf chunks with
    | (none, _, _) => []
    | (some l, buf', chunks') => l :: drainLines fuel buf' chunks'

/-- All logical messages the framer yields for a given delivery of the
stream as successive `recv` chunks. -/
def framerMessages (chunks : List (List Nat)) : List (List Nat) :=
  drainLines (chunks.flatten.length + 1) [] chunks

/-- The messages of a byte stream, independent of any chunking: split at
each newline; a final newline-less remainder is one last message. -/
def linesOfStream (s : List Nat) : List (List Nat) :=
  if h : 10 ∈ s then
    s.takeWhile (fun b => b ≠ 10) :: linesOfStream ((s.dropWhile (fun b => b ≠ 10)).drop 1)
  else if s = [] then [] else [s]
termination_by s.length
decreasing_by
  have hsplit := congrArg List.length (List.takeWhile_append_dropWhile (p := fun b => decide (b ≠ 10)) (l := s))
  rw [List.length_append] at hsplit
  have hne : s.dropWhile (fun b => decide (b ≠ 10)) ≠ [] := by
    intro hnil
    have hall := List.dropWhile_eq_nil_iff.mp hnil 10 h
    simp at hall
  have h2 : 0 < (s.dropWhile (fun b => decide (b ≠ 10))).length :=
    List.length_pos.mpr hne
  simp only [List.length_drop]
  omega

/-! ### One iteration of the `handle_client` loop

The loop body (proxy.py lines 90–210) is embedded as a pure function of the
framed client line, the per-session state, and a `CycleEnv` describing what
the outside world does during this cycle: how `json.loads` behaves on any
given text, and the outcomes of the backend connect / `sendall` / read
operations if they are reached.  The observable network actions are
returned as a trace of `Eff`s. -/

/-- A proxy-origin error response object `{"ok": False, "error": msg}`. -/
def errObj (msg : String) : Json := .obj [(("ok"), .bool false), (("error"), .str msg)]

/-- The blank-line test `len(line.strip()) == 0`: true iff every character
of the line is whitespace. -/
def isBlankLine (line : String) : Bool := line.data.all Char.isWhitespace

/-- Observable network actions of one request cycle, in order. -/
inductive Eff where
  | connectAttempt : Eff
  | sendBackend (req : Json) : Eff
  | readBackend : Eff
  | sendClient (resp : Json) : Eff

/-- What the `handle_client` loop does after the cycle. -/
inductive Outcome where
  | continueSession : Outcome
  | endSession : Outcome

/-- Per-session mutable state of `handle_client`: whether `server_sock` is
live, and the shared response cache. -/
structure PState where
  serverConn : Bool
  cache : LRUCache Json

/-- The outside world during one cycle: the behavior of `json.loads` on any
line, and the outcomes of the backend operations if they are attempted. -/
structure CycleEnv where
  parse : String → Except String Json
  connect : Except String Unit
  backendSend : Except String Unit
  backendRead : Except String (Option String)
  clientSendOk : Bool

/-- The forwarding phase of a cache miss (proxy.py lines 143–210): send the
request to the backend, read one response line, parse it (synthesizing an
error object on failure), store the result in the cache, send it to the
client. -/
def forwardPhase (env : CycleEnv) (st : PState) (cacheKey : String) (req : Json) :
    Outcome × List Eff × PState :=
  match env.backendSend with
  | .error e =>
      (.continueSession,
       [.sendBackend req,
        .sendClient (errObj (("Proxy: error forwarding to backend: ") ++ e))],
       { st with serverConn := false })
  | .ok _ =>
    match env.backendRead with
    | .error e =>
        (.continueSession,
         [.sendBackend req, .readBackend,
          .sendClient (errObj (("Proxy: backend read error: ") ++ e))],
         { st with serverConn := false })
    | .ok none =>
        (.continueSession,
         [.sendBackend req, .readBackend,
          .sendClient (errObj ("Proxy: backend closed connection unexpectedly"))],
         { st with serverConn := false })
    | .ok (some respLine) =>
      let respObj :=
        match env.parse respLine with
        | .ok o => o
        | .error e => errObj (("Proxy: invalid JSON from backend: ") ++ e)
      ((if env.clientSendOk then Outcome.continueSession else Outcome.endSession),
       [.sendBackend req, .readBackend, .sendClient respObj],
       { st with cache := st.cache.set cacheKey respObj })

/-- One iteration of the `handle_client` loop, given the framed client line:
skip blank lines; parse; compute the cache key; answer hits from the cache;
otherwise lazily connect to the backend and run the forwarding phase. -/
def requestCycle (env : CycleEnv) (st : PState) (line : String) :
    Outcome × List Eff × PState :=
  if isBlankLine line then (.continueSession, [], st)
  else
    match env.parse line with
    | .error e =>
        (.continueSession,
         [.sendClient (errObj (("Proxy: invalid JSON request: ") ++ e))], st)
    | .ok req =>
      let cacheKey := Json.dumpsSorted req
      match st.cache.get cacheKey with
      | (some cachedResp, cache1) =>
          ((if env.clientSendOk then Outcome.continueSession else Outcome.endSession),
           [.sendClient cachedResp],
           { st with cache := cache1 })
      | (none, cache1) =>
        let st1 : PState := { st with cache := cache1 }
        if st1.serverConn then
          forwardPhase env st1 cacheKey req
        else
          match env.connect with
          | .error e =>
              (.continueSession,
               [.connectAttempt,
                .sendClient (errObj (("Proxy: backend unavailable: ") ++ e))],
               st1)
          | .ok _ =>
            let r := forwardPhase env { st1 with serverConn := true } cacheKey req
            (r.1, .connectAttempt :: r.2.1, r.2.2)

/-- Run the session loop over a list of framed client lines (the framer's
closed-with-no-data end is the end of the list), collecting all effects;
stop early if a cycle ends the session. -/
def runSession (env : CycleEnv) : PState → List String → List Eff × PState
  | st, [] => ([], st)
  | st, l :: ls =>
    match requestCycle env st l with
    | (.endSession, effs, st') => (effs, st')
    | (.continueSession, effs, st') =>
      let r := runSession env st' ls
      (effs ++ r.1, r.2)

/-! ### Auxiliary orderings and concrete fixtures used by the witnesses -/

/-- Strict version of the entry ordering, used to make sorted orders unique
when the keys are pairwise distinct. -/
def Json.keyLT (p q : String × Json) : Prop := p.1 < q.1

instance : IsTotal (String × Json) Json.keyLE := ⟨fun a b => le_total a.1 b.1⟩

instance : IsTrans (String × Json) Json.keyLE := ⟨fun _ _ _ h1 h2 => le_trans h1 h2⟩

instance : IsAntisymm (String × Json) Json.keyLT :=
  ⟨fun _ _ h1 h2 => absurd h2 (not_lt.mpr (le_of_lt h1))⟩

/-- Concrete cache used by the eviction witness. -/
def lruW : LRUCache Nat := ⟨2, [(("a"), 1), (("b"), 2)]⟩

/-- Concrete request value used by the session witnesses. -/
def reqW : Json := .obj [(("mode"), .str ("calc"))]

/-- Concrete cached response value used by the session witnesses. -/
def respW : Json := .obj [(("ok"), .bool true), (("result"), .num 4)]

/-- Concrete `json.loads` behavior: the line `REQ` parses to `reqW`,
anything else raises `bad`. -/
def parseW : String → Except String Json := fun s =>
  if s = ("REQ") then .ok reqW else .error ("bad")

/-- Environment whose backend operations all succeed. -/
def envUpW : CycleEnv := ⟨parseW, .ok (), .ok (), .ok (some ("RESP")), true⟩

/-- Environment whose backend connect fails. -/
def envDownW : CycleEnv := ⟨parseW, .error ("connection refused"), .ok (), .ok none, true⟩

/-- Session state whose cache already holds the response for `reqW`. -/
def stHitW : PState := ⟨false, ⟨4, [(Json.dumpsSorted reqW, respW)]⟩⟩

/-- Session state with an empty cache and no backend connection. -/
def stEmptyW : PState := ⟨false, ⟨256, []⟩⟩

/-- Session state with an empty cache and a live backend connection. -/
def stConnW : PState := ⟨true, ⟨256, []⟩⟩

/-! ### Association-list lemmas for the ordered dict -/

namespace LRUCache

variable {V : Type}

theorem lookupD_eq_none {d : List (String × V)} {k : String} :
    lookupD d k = none ↔ ∀ p ∈ d, p.1 ≠ k := by
  induction d with
  | nil => simp [lookupD]
  | cons hd tl ih =>
    obtain ⟨k', v⟩ := hd
    by_cases hk : k' = k
    · simp [lookupD, hk]
    · simp [lookupD, hk, ih]

theorem eraseKeyD_of_not_mem {d : List (String × V)} {k : String}
    (h : ∀ p ∈ d, p.1 ≠ k) : eraseKeyD d k = d := by
  unfold eraseKeyD
  rw [List.filter_eq_self]
  intro p hp
  simpa using h p hp

theorem not_key_of_mem_eraseKeyD {d : List (String × V)} {k : String}
    {p : String × V} (h : p ∈ eraseKeyD d k) : p.1 ≠ k := by
  unfold eraseKeyD at h
  have := List.of_mem_filter h
  simpa using this

theorem mem_of_mem_eraseKeyD {d : List (String × V)} {k : String}
    {p : String × V} (h : p ∈ eraseKeyD d k) : p ∈ d :=
  List.mem_of_mem_filter h

theorem length_eraseKeyD {d : List (String × V)} {k : String} {v : V}
    (hnd : (d.map Prod.fst).Nodup) (h : lookupD d k = some v) :
    (eraseKeyD d k).length + 1 = d.length := by
  induction d with
  | nil => simp [lookupD] at h
  | cons hd tl ih =>
    obtain ⟨k', v'⟩ := hd
    simp only [List.map_cons, List.nodup_cons] at hnd
    by_cases hk : k' = k
    · subst hk
      have htl : eraseKeyD tl k' = tl := by
        apply eraseKeyD_of_not_mem
        intro p hp hpk
        exact hnd.1 (hpk ▸ List.mem_map_of_mem Prod.fst hp)
      have hstep : eraseKeyD ((k', v') :: tl) k' = eraseKeyD tl k' := by
        simp [eraseKeyD, List.filter_cons]
      rw [hstep, htl]
      simp
    · simp only [lookupD, if_neg hk] at h
      have hstep : eraseKeyD ((k', v') :: tl) k = (k', v') :: eraseKeyD tl k := by
        simp [eraseKeyD, List.filter_cons, hk]
      rw [hstep]
      simp only [List.length_cons]
      have := ih hnd.2 h
      omega

theorem lookupD_append_of_not_mem {l₁ l₂ : List (String × V)} {k : String}
    (h : ∀ p ∈ l₁, p.1 ≠ k) : lookupD (l₁ ++ l₂) k = lookupD l₂ k := by
  induction l₁ with
  | nil => simp
  | cons hd tl ih =>
    obtain ⟨k', v⟩ := hd
    have hk : k' ≠ k := h (k', v) (List.mem_cons_self _ _)
    simp only [List.cons_append, lookupD, if_neg hk]
    exact ih (fun p hp => h p (List.mem_cons_of_mem _ hp))

theorem tail_append_of_ne_nil {l l' : List (String × V)} (h : l ≠ []) :
    (l ++ l').tail = l.tail ++ l' := by
  cases l with
  | nil => exact absurd rfl h
  | cons hd tl => simp

theorem exists_key_of_lookupD_some {d : List (String × V)} {k : String} {v : V}
    (h : lookupD d k = some v) : ∃ p ∈ d, p.1 = k := by
  induction d with
  | nil => simp [lookupD] at h
  | cons hd tl ih =>
    obtain ⟨k0, v0⟩ := hd
    by_cases h0 : k0 = k
    · exact ⟨(k0, v0), List.mem_cons_self _ _, h0⟩
    · simp only [lookupD, if_neg h0] at h
      obtain ⟨p, hp, hpk⟩ := ih h
      exact ⟨p, List.mem_cons_of_mem _ hp, hpk⟩

end LRUCache

/-! ### Claims about the LRU cache -/

/-- C10: `LRUCache.get` on an absent key returns `None` and leaves the cache
completely unchanged — same entries, same values, same recency order. -/
theorem lru_get_absent_frame {V : Type} (c : LRUCache V) (k : String)
    (h : LRUCache.lookupD c.d k = none) :
    c.get k = (none, c) := by
  simp [LRUCache.get, h]

theorem lru_get_absent_frame_witness :
    (⟨2, [(("a"), 1)]⟩ : LRUCache Nat).get ("b") =
      (none, (⟨2, [(("a"), 1)]⟩ : LRUCache Nat)) :=
  lru_get_absent_frame _ _ (by decide)

/-- C2 counterexample: with capacity N = 1, the claim's protection clause
fails.  The cache holds one entry `"a"`; `get "a"` promotes it (it already
is the most recently used entry), yet the very next insert of a fresh key
evicts `"a"` — so at N = 1 a key accessed via `get` right before the
(N+1)-th insert is NOT protected from eviction. -/
theorem lru_get_protect_fails_at_capacity_one :
    LRUCache.lookupD
      ((((⟨1, [(("a"), 1)]⟩ : LRUCache Nat).get ("a")).2.set ("b") 2).d) ("a") =
      none := by decide

/-- Amended C2: for a full cache of capacity N ≥ 1 with distinct keys,
inserting a fresh key via `set` evicts exactly the least-recently-used
entry (the front of the order) and no other, leaving the cache at size N;
and when N ≥ 2, any key accessed via `get` immediately before that insert
is promoted and survives the insert with its value intact. -/
theorem lru_evict_exact_and_get_protects {V : Type} (c : LRUCache V)
    (k' : String) (v' : V)
    (hfull : c.d.length = c.capacity) (hcap : 1 ≤ c.capacity)
    (hnd : (c.d.map Prod.fst).Nodup)
    (hfresh : ∀ p ∈ c.d, p.1 ≠ k') :
    ((c.set k' v').d = c.d.tail ++ [(k', v')] ∧
      (c.set k' v').d.length = c.capacity) ∧
    (∀ (k : String) (v : V), 2 ≤ c.capacity →
      LRUCache.lookupD c.d k = some v →
      LRUCache.lookupD (((c.get k).2.set k' v').d) k = some v) := by
  have herase : LRUCache.eraseKeyD c.d k' = c.d :=
    LRUCache.eraseKeyD_of_not_mem hfresh
  have hdne : c.d ≠ [] := by
    intro hnil
    rw [hnil] at hfull
    simp at hfull
    omega
  constructor
  · constructor
    · show (if c.capacity < (LRUCache.eraseKeyD c.d k' ++ [(k', v')]).length
              then _ else _ : LRUCache V).d = _
      rw [herase]
      have hlen : (c.d ++ [(k', v')]).length = c.capacity + 1 := by
        simp [hfull]
      rw [if_pos (by omega)]
      exact LRUCache.tail_append_of_ne_nil hdne
    · show (if c.capacity < (LRUCache.eraseKeyD c.d k' ++ [(k', v')]).length
              then _ else _ : LRUCache V).d.length = _
      rw [herase]
      have hlen : (c.d ++ [(k', v')]).length = c.capacity + 1 := by
        simp [hfull]
      rw [if_pos (by omega)]
      rw [LRUCache.tail_append_of_ne_nil hdne]
      simp
      omega
  · intro k v hcap2 hlk
    -- `get k` promotes the entry to the back of the order
    have hget : (c.get k).2 =
        ({ c with d := LRUCache.eraseKeyD c.d k ++ [(k, v)] } : LRUCache V) := by
      simp [LRUCache.get, hlk]
    rw [hget]
    -- the promoted dict still has size N and does not contain k'
    have hlen1 : (LRUCache.eraseKeyD c.d k ++ [(k, v)]).length = c.capacity := by
      have := LRUCache.length_eraseKeyD hnd hlk
      simp
      omega
    have hk'k : k ≠ k' := by
      intro hkk
      obtain ⟨p, hp, hpk⟩ := LRUCache.exists_key_of_lookupD_some hlk
      exact hfresh p hp (hpk.trans hkk)
    have hfresh1 : ∀ p ∈ LRUCache.eraseKeyD c.d k ++ [(k, v)], p.1 ≠ k' := by
      intro p hp
      rcases List.mem_append.mp hp with hin | hin
      · exact hfresh p (LRUCache.mem_of_mem_eraseKeyD hin)
      · simp at hin
        rw [hin]
        exact hk'k
    -- the insert then evicts only the front entry
    have herase1 :
        LRUCache.eraseKeyD (LRUCache.eraseKeyD c.d k ++ [(k, v)]) k' =
          LRUCache.eraseKeyD c.d k ++ [(k, v)] :=
      LRUCache.eraseKeyD_of_not_mem hfresh1
    show LRUCache.lookupD
        ((if c.capacity <
            (LRUCache.eraseKeyD (LRUCache.eraseKeyD c.d k ++ [(k, v)]) k' ++
              [(k', v')]).length
          then _ else _ : LRUCache V).d) k = some v
    rw [herase1]
    have hcond : c.capacity <
        ((LRUCache.eraseKeyD c.d k ++ [(k, v)]) ++ [(k', v')]).length := by
      rw [List.length_append, hlen1]
      simp
    rw [if_pos hcond]
    -- the erased-front dict still holds (k, v) behind no other k entry
    have heused : LRUCache.eraseKeyD c.d k ≠ [] := by
      intro hnil
      have := LRUCache.length_eraseKeyD hnd hlk
      rw [hnil] at this
      simp at this
      omega
    rw [LRUCache.tail_append_of_ne_nil (by
      intro hnil
      exact heused (List.append_eq_nil.mp hnil).1)]
    rw [LRUCache.tail_append_of_ne_nil heused]
    have hnok : ∀ p ∈ (LRUCache.eraseKeyD c.d k).tail, p.1 ≠ k := by
      intro p hp
      exact LRUCache.not_key_of_mem_eraseKeyD (List.mem_of_mem_tail hp)
    rw [List.append_assoc]
    rw [LRUCache.lookupD_append_of_not_mem hnok]
    simp [LRUCache.lookupD]

theorem lru_evict_exact_and_get_protects_witness :
    ((lruW.set ("c") 3).d = [(("b"), 2), (("c"), 3)] ∧
      (lruW.set ("c") 3).d.length = 2) ∧
    LRUCache.lookupD (((lruW.get ("a")).2.set ("c") 3).d) ("a") = some 1 := by
  have h := lru_evict_exact_and_get_protects lruW ("c") 3
    (by decide) (by decide) (by decide) (by decide)
  refine ⟨⟨?_, h.1.2⟩, h.2 ("a") 1 (by decide) (by decide)⟩
  rw [h.1.1]
  decide

/-! ### Claims about the line framer -/

/-- C6: end-of-stream policy of `recv_line`.  When `recv` reports the peer
closed (no chunks left) and the buffer holds no newline: an empty buffer
yields closed-with-no-data (`none`); a non-empty buffer is salvaged whole
as one final message and the buffer is emptied. -/
theorem recvLine_end_of_stream (buf : List Nat) (h : 10 ∉ buf) :
    recvLine buf [] = ((if buf = [] then none else some buf), [], []) := by
  unfold recvLine
  rw [if_neg h]
  by_cases hb : buf = [] <;> simp [hb]

theorem recvLine_end_of_stream_witness :
    recvLine [] [] = (none, [], []) ∧
    recvLine [72, 73] [] = (some [72, 73], [], []) := by
  have h1 := recvLine_end_of_stream [] (by decide)
  have h2 := recvLine_end_of_stream [72, 73] (by decide)
  simp at h1 h2
  exact ⟨h1, h2⟩

/-- Helper: dropping one byte distributes over an append with a non-empty
first part. -/
theorem drop_one_append {l r : List Nat} (h : l ≠ []) :
    (l ++ r).drop 1 = l.drop 1 ++ r := by
  cases l with
  | nil => exact absurd rfl h
  | cons a l' => simp

/-- Helper: `takeWhile` up to the first newline ignores anything appended
after a part that already contains a newline. -/
theorem takeWhile_append_of_mem {l r : List Nat} (h : 10 ∈ l) :
    (l ++ r).takeWhile (fun b => decide (b ≠ 10)) =
      l.takeWhile (fun b => decide (b ≠ 10)) := by
  induction l with
  | nil => simp at h
  | cons a l' ih =>
    by_cases ha : a = 10
    · subst ha
      have hpa : decide ((10 : Nat) ≠ 10) = false := by simp
      rw [List.cons_append]
      simp only [List.takeWhile_cons, hpa]
      simp
    · have h' : 10 ∈ l' := by
        rcases List.mem_cons.mp h with h10 | h10
        · exact absurd h10.symm ha
        · exact h10
      have hpa : decide (a ≠ 10) = true := by simp [ha]
      rw [List.cons_append]
      simp only [List.takeWhile_cons, hpa, if_true]
      rw [ih h']

/-- Helper: `dropWhile` up to the first newline commutes with appending
after a part that already contains a newline. -/
theorem dropWhile_append_of_mem {l r : List Nat} (h : 10 ∈ l) :
    (l ++ r).dropWhile (fun b => decide (b ≠ 10)) =
      l.dropWhile (fun b => decide (b ≠ 10)) ++ r := by
  induction l with
  | nil => simp at h
  | cons a l' ih =>
    by_cases ha : a = 10
    · subst ha
      have hpa : decide ((10 : Nat) ≠ 10) = false := by simp
      rw [List.cons_append]
      simp only [List.dropWhile_cons, hpa]
      simp
    · have h' : 10 ∈ l' := by
        rcases List.mem_cons.mp h with h10 | h10
        · exact absurd h10.symm ha
        · exact h10
      have hpa : decide (a ≠ 10) = true := by simp [ha]
      rw [List.cons_append]
      simp only [List.dropWhile_cons, hpa, if_true]
      rw [ih h']

/-- Helper: with a newline in the stream, `dropWhile` leaves the newline. -/
theorem dropWhile_ne_nil_of_mem {l : List Nat} (h : 10 ∈ l) :
    l.dropWhile (fun b => decide (b ≠ 10)) ≠ [] := by
  intro hnil
  have hall := List.dropWhile_eq_nil_iff.mp hnil 10 h
  simp at hall

/-- Behavior of `recvLine` on a stream containing a newline: it returns the bytes before
the first newline, and the retained buffer plus the unread chunks hold
exactly the bytes after it. -/
theorem recvLine_spec_mem :
    ∀ (chunks : List (List Nat)) (buf : List Nat),
      (∀ c ∈ chunks, c ≠ []) → 10 ∈ buf ++ chunks.flatten →
      ∃ buf' chunks',
        recvLine buf chunks =
          (some ((buf ++ chunks.flatten).takeWhile (fun b => decide (b ≠ 10))),
           buf', chunks') ∧
        buf' ++ chunks'.flatten =
          ((buf ++ chunks.flatten).dropWhile (fun b => decide (b ≠ 10))).drop 1 ∧
        ∀ c ∈ chunks', c ≠ []
  | [], buf => by
    intro _ hmem
    simp only [List.flatten_nil, List.append_nil] at hmem ⊢
    refine ⟨(buf.dropWhile (fun b => decide (b ≠ 10))).drop 1, [], ?_, ?_, ?_⟩
    · rw [recvLine, if_pos hmem]
    · simp
    · simp
  | c :: cs, buf => by
    intro hne hmem
    by_cases hb : 10 ∈ buf
    · refine ⟨(buf.dropWhile (fun b => decide (b ≠ 10))).drop 1, c :: cs, ?_, ?_, hne⟩
      · rw [recvLine, if_pos hb, takeWhile_append_of_mem hb]
      · rw [dropWhile_append_of_mem hb, drop_one_append (dropWhile_ne_nil_of_mem hb)]
    · have hc : c ≠ [] := hne c (List.mem_cons_self _ _)
      have hstep : recvLine buf (c :: cs) = recvLine (buf ++ c) cs := by
        rw [recvLine, if_neg hb]
        simp [hc]
      have hne' : ∀ x ∈ cs, x ≠ [] := fun x hx => hne x (List.mem_cons_of_mem _ hx)
      have hmem' : 10 ∈ (buf ++ c) ++ cs.flatten := by
        rw [List.append_assoc, ← List.flatten_cons]
        exact hmem
      obtain ⟨buf', chunks', h1, h2, h3⟩ := recvLine_spec_mem cs (buf ++ c) hne' hmem'
      refine ⟨buf', chunks', ?_, ?_, h3⟩
      · rw [hstep, h1, List.append_assoc, List.flatten_cons]
      · rw [h2, List.append_assoc, List.flatten_cons]

/-- Behavior of `recvLine` on an exhausted stream with nothing buffered: closed, no data. -/
theorem recvLine_spec_empty :
    ∀ (chunks : List (List Nat)) (buf : List Nat),
      (∀ c ∈ chunks, c ≠ []) → buf ++ chunks.flatten = [] →
      recvLine buf chunks = (none, [], [])
  | [], buf => by
    intro _ hnil
    simp only [List.flatten_nil, List.append_nil] at hnil
    subst hnil
    rw [recvLine]
    simp
  | c :: cs, buf => by
    intro hne hnil
    have hc : c ≠ [] := hne c (List.mem_cons_self _ _)
    rcases List.append_eq_nil.mp hnil with ⟨_, hflat⟩
    rw [List.flatten_cons] at hflat
    exact absurd (List.append_eq_nil.mp hflat).1 hc

/-- Behavior of `recvLine` on a newline-less non-empty stream: the whole remainder is
salvaged as one final message. -/
theorem recvLine_spec_salvage :
    ∀ (chunks : List (List Nat)) (buf : List Nat),
      (∀ c ∈ chunks, c ≠ []) → 10 ∉ buf ++ chunks.flatten →
      buf ++ chunks.flatten ≠ [] →
      recvLine buf chunks = (some (buf ++ chunks.flatten), [], [])
  | [], buf => by
    intro _ hnot hnn
    simp only [List.flatten_nil, List.append_nil] at hnot hnn ⊢
    rw [recvLine, if_neg hnot]
    simp [hnn]
  | c :: cs, buf => by
    intro hne hnot hnn
    have hb : 10 ∉ buf := fun h => hnot (List.mem_append.mpr (Or.inl h))
    have hc : c ≠ [] := hne c (List.mem_cons_self _ _)
    have hstep : recvLine buf (c :: cs) = recvLine (buf ++ c) cs := by
      rw [recvLine, if_neg hb]
      simp [hc]
    have hne' : ∀ x ∈ cs, x ≠ [] := fun x hx => hne x (List.mem_cons_of_mem _ hx)
    have hassoc : (buf ++ c) ++ cs.flatten = buf ++ (c :: cs).flatten := by
      rw [List.append_assoc, List.flatten_cons]
    rw [hstep, recvLine_spec_salvage cs (buf ++ c) hne'
      (by rw [hassoc]; exact hnot) (by rw [hassoc]; exact hnn), hassoc]

/-- Draining an already-exhausted stream produces no messages. -/
theorem drainLines_nil_nil : ∀ fuel, drainLines fuel [] [] = []
  | 0 => rfl
  | fuel + 1 => by
    have : recvLine [] [] = (none, [], []) := by
      rw [recvLine]
      simp
    rw [drainLines, this]

/-- Draining via `recvLine` yields exactly the chunking-independent message
split of the underlying byte stream, given enough fuel. -/
theorem drainLines_eq :
    ∀ (fuel : Nat) (buf : List Nat) (chunks : List (List Nat)),
      (∀ c ∈ chunks, c ≠ []) →
      (buf ++ chunks.flatten).length ≤ fuel →
      drainLines fuel buf chunks = linesOfStream (buf ++ chunks.flatten) := by
  intro fuel
  induction fuel with
  | zero =>
    intro buf chunks hne hlen
    have hnil : buf ++ chunks.flatten = [] := by
      cases hql : buf ++ chunks.flatten with
      | nil => rfl
      | cons a l => rw [hql] at hlen; simp at hlen
    rw [hnil, linesOfStream]
    simp [drainLines]
  | succ fuel ih =>
    intro buf chunks hne hlen
    by_cases hmem : 10 ∈ buf ++ chunks.flatten
    · obtain ⟨buf', chunks', h1, h2, h3⟩ := recvLine_spec_mem chunks buf hne hmem
      have hsplit := congrArg List.length
        (List.takeWhile_append_dropWhile
          (p := fun b => decide (b ≠ 10)) (l := buf ++ chunks.flatten))
      rw [List.length_append] at hsplit
      have hdne := dropWhile_ne_nil_of_mem hmem
      have hdpos : 0 < ((buf ++ chunks.flatten).dropWhile (fun b => decide (b ≠ 10))).length :=
        List.length_pos.mpr hdne
      have hlen' : (buf' ++ chunks'.flatten).length ≤ fuel := by
        rw [h2]
        simp only [List.length_drop]
        omega
      have hstep : drainLines (fuel + 1) buf chunks =
          ((buf ++ chunks.flatten).takeWhile (fun b => decide (b ≠ 10))) ::
            drainLines fuel buf' chunks' := by
        rw [drainLines, h1]
      rw [hstep, ih buf' chunks' h3 hlen', h2]
      conv_rhs => rw [linesOfStream]
      rw [dif_pos hmem]
    · by_cases hnil : buf ++ chunks.flatten = []
      · have hstep : drainLines (fuel + 1) buf chunks = ([] : List (List Nat)) := by
          rw [drainLines, recvLine_spec_empty chunks buf hne hnil]
        rw [hstep, hnil, linesOfStream]
        simp
      · have hstep : drainLines (fuel + 1) buf chunks =
            (buf ++ chunks.flatten) :: drainLines fuel [] [] := by
          rw [drainLines, recvLine_spec_salvage chunks buf hne hmem hnil]
        rw [hstep, drainLines_nil_nil, linesOfStream, dif_neg hmem, if_neg hnil]

/-- C5: the line framer is chunking-independent.  Delivering a byte stream
in any sequence of non-empty `recv` chunks yields exactly the same messages
as delivering the whole stream in a single read. -/
theorem framer_chunk_independence (chunks : List (List Nat))
    (h : ∀ c ∈ chunks, c ≠ []) :
    framerMessages chunks = framerMessages [chunks.flatten] := by
  by_cases hnil : chunks.flatten = []
  · have hchunks : chunks = [] := by
      cases chunks with
      | nil => rfl
      | cons c cs =>
        have hc : c ≠ [] := h c (List.mem_cons_self _ _)
        rw [List.flatten_cons] at hnil
        exact absurd (List.append_eq_nil.mp hnil).1 hc
    subst hchunks
    rw [framerMessages, framerMessages]
    simp only [List.flatten_nil]
    rw [drainLines_nil_nil]
    have : recvLine [] [[]] = (none, [], []) := by
      rw [recvLine]
      simp
    simp [drainLines, this]
  · have hone : ∀ c ∈ [chunks.flatten], c ≠ [] := by
      intro c hc
      simp at hc
      rw [hc]
      exact hnil
    rw [framerMessages, framerMessages,
        drainLines_eq (chunks.flatten.length + 1) [] chunks h (by simp),
        drainLines_eq (([chunks.flatten] : List (List Nat)).flatten.length + 1)
          [] [chunks.flatten] hone (by simp)]
    simp

theorem framer_chunk_independence_witness :
    framerMessages [[72], [105, 10, 66], [121, 101]] =
      framerMessages [[72, 105, 10, 66, 121, 101]] := by
  have h := framer_chunk_independence [[72], [105, 10, 66], [121, 101]] (by decide)
  simpa using h

/-! ### Claims about the session handler -/

/-- Helper shared by the session-cycle proofs: `get` on a missing key is the
identity on the cache. -/
theorem LRUCache.get_none_of_lookup_none {V : Type} (c : LRUCache V) (k : String)
    (h : LRUCache.lookupD c.d k = none) : c.get k = (none, c) := by
  simp [LRUCache.get, h]

/-- Helper: looking up the key of the front entry. -/
theorem LRUCache.lookupD_cons_self {V : Type} (k : String) (v : V)
    (rest : List (String × V)) :
    LRUCache.lookupD ((k, v) :: rest) k = some v := by
  simp [LRUCache.lookupD]

/-- Helper: `get` on a singleton cache holding exactly the requested key. -/
theorem LRUCache.get_singleton {V : Type} (cap : Nat) (k : String) (v : V) :
    (⟨cap, [(k, v)]⟩ : LRUCache V).get k = (some v, ⟨cap, [(k, v)]⟩) := by
  have h1 : LRUCache.lookupD [(k, v)] k = some v := LRUCache.lookupD_cons_self k v []
  have h2 : LRUCache.eraseKeyD ([(k, v)] : List (String × V)) k = [] := by
    simp [LRUCache.eraseKeyD]
  simp [LRUCache.get, h1, h2]

/-- C3: on a cache hit the session handler sends the cached response object
to the client verbatim (whatever it is, `meta` fields included) and performs
no backend action at all during the cycle — no connect attempt, no send, no
read; the only effect is the one send to the client. -/
theorem cache_hit_verbatim_no_backend
    (env : CycleEnv) (st : PState) (line : String) (req cached : Json)
    (c₁ : LRUCache Json)
    (hbl : isBlankLine line = false)
    (hparse : env.parse line = .ok req)
    (hget : st.cache.get (Json.dumpsSorted req) = (some cached, c₁))
    (hcs : env.clientSendOk = true) :
    requestCycle env st line =
      (.continueSession, [.sendClient cached], { st with cache := c₁ }) := by
  simp [requestCycle, hbl, hparse, hget, hcs]

theorem cache_hit_verbatim_no_backend_witness :
    requestCycle envUpW stHitW ("REQ") =
      (.continueSession, [.sendClient respW],
       { stHitW with cache := ⟨4, [(Json.dumpsSorted reqW, respW)]⟩ }) := by
  have hget : stHitW.cache.get (Json.dumpsSorted reqW) =
      (some respW, ⟨4, [(Json.dumpsSorted reqW, respW)]⟩) :=
    LRUCache.get_singleton 4 (Json.dumpsSorted reqW) respW
  exact cache_hit_verbatim_no_backend envUpW stHitW ("REQ") reqW respW _
    (by decide) (by simp [envUpW, parseW]) hget (by simp [envUpW])

/-- C7: an invalid-JSON client line draws exactly one error response and
does not end the session; a following valid line on the same connection is
then served normally (here: from the cache), so the two-line exchange
yields exactly two responses — one error, one normal — with every cycle
ending in `continueSession`. -/
theorem invalid_json_request_isolated
    (env : CycleEnv) (st : PState) (l1 l2 e : String)
    (req resp : Json) (c₁ : LRUCache Json)
    (hbl1 : isBlankLine l1 = false)
    (hbad : env.parse l1 = .error e)
    (hbl2 : isBlankLine l2 = false)
    (hok : env.parse l2 = .ok req)
    (hget : st.cache.get (Json.dumpsSorted req) = (some resp, c₁))
    (hcs : env.clientSendOk = true) :
    requestCycle env st l1 =
      (.continueSession,
       [.sendClient (errObj (("Proxy: invalid JSON request: ") ++ e))], st) ∧
    runSession env st [l1, l2] =
      ([.sendClient (errObj (("Proxy: invalid JSON request: ") ++ e)),
        .sendClient resp],
       { st with cache := c₁ }) := by
  have hc1 : requestCycle env st l1 =
      (.continueSession,
       [.sendClient (errObj (("Proxy: invalid JSON request: ") ++ e))], st) := by
    simp [requestCycle, hbl1, hbad]
  have hc2 : requestCycle env st l2 =
      (.continueSession, [.sendClient resp], { st with cache := c₁ }) := by
    simp [requestCycle, hbl2, hok, hget, hcs]
  refine ⟨hc1, ?_⟩
  simp [runSession, hc1, hc2]

theorem invalid_json_request_isolated_witness :
    requestCycle envUpW stHitW ("BAD") =
      (.continueSession,
       [.sendClient (errObj (("Proxy: invalid JSON request: ") ++ ("bad")))],
       stHitW) ∧
    runSession envUpW stHitW [("BAD"), ("REQ")] =
      ([.sendClient (errObj (("Proxy: invalid JSON request: ") ++ ("bad"))),
        .sendClient respW],
       { stHitW with cache := ⟨4, [(Json.dumpsSorted reqW, respW)]⟩ }) := by
  have hget : stHitW.cache.get (Json.dumpsSorted reqW) =
      (some respW, ⟨4, [(Json.dumpsSorted reqW, respW)]⟩) :=
    LRUCache.get_singleton 4 (Json.dumpsSorted reqW) respW
  exact invalid_json_request_isolated envUpW stHitW ("BAD") ("REQ") ("bad")
    reqW respW _
    (by decide) (by simp [envUpW, parseW]) (by decide)
    (by simp [envUpW, parseW]) hget (by simp [envUpW])

/-- C8: on a cache miss with no live backend connection and a failing
connect, the session handler sends exactly one backend-unavailable error,
keeps the session open, leaves the cache and the whole session state
unchanged, and records no backend connection — so the next request needing
the backend will lazily attempt to connect again. -/
theorem backend_unavailable_isolated
    (env : CycleEnv) (st : PState) (line : String) (req : Json) (e : String)
    (hbl : isBlankLine line = false)
    (hparse : env.parse line = .ok req)
    (hmiss : LRUCache.lookupD st.cache.d (Json.dumpsSorted req) = none)
    (hnoconn : st.serverConn = false)
    (hconn : env.connect = .error e) :
    requestCycle env st line =
      (.continueSession,
       [.connectAttempt,
        .sendClient (errObj (("Proxy: backend unavailable: ") ++ e))],
       st) := by
  have hget := LRUCache.get_none_of_lookup_none st.cache (Json.dumpsSorted req) hmiss
  obtain ⟨sc, ca⟩ := st
  simp only at hnoconn
  subst hnoconn
  simp [requestCycle, hbl, hparse, hget, hconn]

theorem backend_unavailable_isolated_witness :
    requestCycle envDownW stEmptyW ("REQ") =
      (.continueSession,
       [.connectAttempt,
        .sendClient (errObj (("Proxy: backend unavailable: ") ++ ("connection refused")))],
       stEmptyW) :=
  backend_unavailable_isolated envDownW stEmptyW ("REQ") reqW ("connection refused")
    (by decide) (by simp [envDownW, parseW]) (by simp [stEmptyW, LRUCache.lookupD])
    (by simp [stEmptyW]) (by simp [envDownW])

/-- C1: evaluating one full request cycle in which the backend's response
line fails to parse as JSON.  The proxy does synthesize and send the failure
object `{"ok": false, "error": "Proxy: invalid JSON from backend: ..."}` —
but, contrary to the claim, `handle_client` then stores exactly this
synthesized failure in the shared cache under the request's cache key
(`cache.set` at proxy.py line 188 runs unconditionally). -/
theorem backend_invalid_json_failure_is_cached :
    requestCycle envUpW stConnW ("REQ") =
      (.continueSession,
       [.sendBackend reqW, .readBackend,
        .sendClient (errObj (("Proxy: invalid JSON from backend: ") ++ ("bad")))],
       ⟨true, ⟨256,
         [(Json.dumpsSorted reqW,
           errObj (("Proxy: invalid JSON from backend: ") ++ ("bad")))]⟩⟩) ∧
    LRUCache.lookupD ((requestCycle envUpW stConnW ("REQ")).2.2.cache.d)
      (Json.dumpsSorted reqW) =
      some (errObj (("Proxy: invalid JSON from backend: ") ++ ("bad"))) := by
  have hcycle : requestCycle envUpW stConnW ("REQ") =
      (.continueSession,
       [.sendBackend reqW, .readBackend,
        .sendClient (errObj (("Proxy: invalid JSON from backend: ") ++ ("bad")))],
       ⟨true, ⟨256,
         [(Json.dumpsSorted reqW,
           errObj (("Proxy: invalid JSON from backend: ") ++ ("bad")))]⟩⟩) := by
    have hbl : isBlankLine ("REQ") = false := by decide
    simp [requestCycle, hbl, envUpW, parseW, stConnW, forwardPhase,
      LRUCache.get, LRUCache.lookupD, LRUCache.set, LRUCache.eraseKeyD]
  refine ⟨hcycle, ?_⟩
  rw [hcycle]
  exact LRUCache.lookupD_cons_self (Json.dumpsSorted reqW)
    (errObj (("Proxy: invalid JSON from backend: ") ++ ("bad"))) []

/-! ### The cache key is stable under object-key reordering -/

theorem sortKeys_arr (xs : List Json) :
    Json.sortKeys (.arr xs) = .arr (xs.map Json.sortKeys) := by
  simp only [Json.sortKeys]
  exact congrArg Json.arr (List.attach_map_val xs Json.sortKeys)

theorem sortKeys_obj (kvs : List (String × Json)) :
    Json.sortKeys (.obj kvs) =
      .obj (List.insertionSort Json.keyLE
        (kvs.map (fun p => (p.1, Json.sortKeys p.2)))) := by
  simp only [Json.sortKeys]
  exact congrArg Json.obj (congrArg (List.insertionSort Json.keyLE)
    (List.attach_map_val kvs (fun p => (p.1, Json.sortKeys p.2))))

theorem nodupKeys_arr_iff (xs : List Json) :
    Json.nodupKeys (.arr xs) = true ↔ ∀ x ∈ xs, Json.nodupKeys x = true := by
  simp only [Json.nodupKeys]
  rw [List.all_eq_true]
  constructor
  · intro h x hx
    exact h ⟨x, hx⟩ (List.mem_attach xs _)
  · intro h x _
    exact h x.1 x.2

theorem nodupKeys_obj_iff (kvs : List (String × Json)) :
    Json.nodupKeys (.obj kvs) = true ↔
      ((kvs.map Prod.fst).Nodup ∧ ∀ p ∈ kvs, Json.nodupKeys p.2 = true) := by
  simp only [Json.nodupKeys]
  rw [Bool.and_eq_true, List.all_eq_true, decide_eq_true_eq]
  constructor
  · rintro ⟨h1, h2⟩
    exact ⟨h1, fun p hp => h2 ⟨p, hp⟩ (List.mem_attach kvs _)⟩
  · rintro ⟨h1, h2⟩
    exact ⟨h1, fun p _ => h2 p.1 p.2⟩

/-- The relation `EquivKVs` relates entries pointwise, so it preserves the key list. -/
theorem equivKVs_map_fst :
    ∀ {kvs₁ kvs₃ : List (String × Json)}, Json.EquivKVs kvs₁ kvs₃ →
      kvs₁.map Prod.fst = kvs₃.map Prod.fst := by
  intro kvs₁
  induction kvs₁ with
  | nil =>
    intro kvs₃ h
    cases h
    rfl
  | cons p rest ih =>
    obtain ⟨k, v⟩ := p
    intro kvs₃ h
    cases h with
    | cons hvw hrest => simp [ih hrest]

/-- Two sorted permutations of an entry list with pairwise-distinct keys are
equal: sorting by key is unambiguous when the keys are distinct. -/
theorem insertionSort_eq_of_perm {l₁ l₂ : List (String × Json)}
    (hp : l₁.Perm l₂) (hnd : (l₁.map Prod.fst).Nodup) :
    List.insertionSort Json.keyLE l₁ = List.insertionSort Json.keyLE l₂ := by
  have hperm : (List.insertionSort Json.keyLE l₁).Perm
      (List.insertionSort Json.keyLE l₂) :=
    (List.perm_insertionSort Json.keyLE l₁).trans
      (hp.trans (List.perm_insertionSort Json.keyLE l₂).symm)
  have hs1 : List.Sorted Json.keyLE (List.insertionSort Json.keyLE l₁) :=
    List.sorted_insertionSort Json.keyLE l₁
  have hs2 : List.Sorted Json.keyLE (List.insertionSort Json.keyLE l₂) :=
    List.sorted_insertionSort Json.keyLE l₂
  have hnd2 : (l₂.map Prod.fst).Nodup := ((hp.map Prod.fst).nodup_iff).mp hnd
  have hnds1 : ((List.insertionSort Json.keyLE l₁).map Prod.fst).Nodup :=
    (((List.perm_insertionSort Json.keyLE l₁).map Prod.fst).nodup_iff).mpr hnd
  have hnds2 : ((List.insertionSort Json.keyLE l₂).map Prod.fst).Nodup :=
    (((List.perm_insertionSort Json.keyLE l₂).map Prod.fst).nodup_iff).mpr hnd2
  have hlt1 : (List.insertionSort Json.keyLE l₁).Pairwise Json.keyLT := by
    unfold List.Nodup at hnds1
    exact (hs1.and ((List.pairwise_map).mp hnds1)).imp
      (fun h => lt_of_le_of_ne h.1 h.2)
  have hlt2 : (List.insertionSort Json.keyLE l₂).Pairwise Json.keyLT := by
    unfold List.Nodup at hnds2
    exact (hs2.and ((List.pairwise_map).mp hnds2)).imp
      (fun h => lt_of_le_of_ne h.1 h.2)
  exact List.eq_of_perm_of_sorted hperm hlt1 hlt2

/-- Pointwise-equivalent value lists have equal `sortKeys` images, given the
equality on each pair of related elements. -/
theorem map_sortKeys_eq_of_equivList {xs ys : List Json}
    (h : Json.EquivList xs ys)
    (H : ∀ x ∈ xs, ∀ y, Json.Equiv x y → Json.nodupKeys x = true →
      Json.nodupKeys y = true → Json.sortKeys x = Json.sortKeys y)
    (hx : ∀ x ∈ xs, Json.nodupKeys x = true)
    (hy : ∀ y ∈ ys, Json.nodupKeys y = true) :
    xs.map Json.sortKeys = ys.map Json.sortKeys := by
  induction xs generalizing ys with
  | nil =>
    cases h
    rfl
  | cons x xs' ih =>
    cases h with
    | cons hxy hrest =>
      rename_i y ys'
      have hv : Json.sortKeys x = Json.sortKeys y :=
        H x (List.mem_cons_self _ _) y hxy
          (hx x (List.mem_cons_self _ _)) (hy y (List.mem_cons_self _ _))
      have htail := ih hrest
        (fun p hp => H p (List.mem_cons_of_mem _ hp))
        (fun p hp => hx p (List.mem_cons_of_mem _ hp))
        (fun q hq => hy q (List.mem_cons_of_mem _ hq))
      simp [hv, htail]

/-- Pointwise-equivalent entry lists have equal images under keeping the key
and sorting the value, given the equality on each pair of related values. -/
theorem map_sortKeys_eq_of_equivKVs {kvs₁ kvs₃ : List (String × Json)}
    (h : Json.EquivKVs kvs₁ kvs₃)
    (H : ∀ p ∈ kvs₁, ∀ w, Json.Equiv p.2 w → Json.nodupKeys p.2 = true →
      Json.nodupKeys w = true → Json.sortKeys p.2 = Json.sortKeys w)
    (h₁ : ∀ p ∈ kvs₁, Json.nodupKeys p.2 = true)
    (h₃ : ∀ p ∈ kvs₃, Json.nodupKeys p.2 = true) :
    kvs₁.map (fun p => (p.1, Json.sortKeys p.2)) =
      kvs₃.map (fun p => (p.1, Json.sortKeys p.2)) := by
  induction kvs₁ generalizing kvs₃ with
  | nil =>
    cases h
    rfl
  | cons p rest ih =>
    obtain ⟨k, v⟩ := p
    cases h with
    | cons hvw hrest =>
      rename_i w rest₂
      have hv : Json.sortKeys v = Json.sortKeys w :=
        H (k, v) (List.mem_cons_self _ _) w hvw
          (h₁ (k, v) (List.mem_cons_self _ _)) (h₃ (k, w) (List.mem_cons_self _ _))
      have htail := ih hrest
        (fun p hp => H p (List.mem_cons_of_mem _ hp))
        (fun p hp => h₁ p (List.mem_cons_of_mem _ hp))
        (fun q hq => h₃ q (List.mem_cons_of_mem _ hq))
      simp [hv, htail]

/-- Core lemma for the cache-key claim: equivalent values (same fields, any
object-key order, keys distinct) have identical recursively-key-sorted
forms.  By strong induction on the size of the first value. -/
theorem sortKeys_eq_of_equiv :
    ∀ (n : Nat) (a b : Json), sizeOf a ≤ n → Json.Equiv a b →
      Json.nodupKeys a = true → Json.nodupKeys b = true →
      Json.sortKeys a = Json.sortKeys b := by
  intro n
  induction n using Nat.strong_induction_on with
  | _ n IH =>
    intro a b hsize heq ha hb
    cases heq with
    | null => rfl
    | bool v => rfl
    | num v => rfl
    | str v => rfl
    | arr hlist =>
      rename_i xs ys
      rw [sortKeys_arr, sortKeys_arr]
      have H : ∀ x ∈ xs, ∀ y, Json.Equiv x y → Json.nodupKeys x = true →
          Json.nodupKeys y = true → Json.sortKeys x = Json.sortKeys y := by
        intro x hx y hxy hnx hny
        have hlt : sizeOf x < sizeOf (Json.arr xs) := by
          have := List.sizeOf_lt_of_mem hx
          simp only [Json.arr.sizeOf_spec]
          omega
        exact IH (sizeOf x) (by omega) x y le_rfl hxy hnx hny
      exact congrArg Json.arr
        (map_sortKeys_eq_of_equivList hlist H
          ((nodupKeys_arr_iff xs).mp ha) ((nodupKeys_arr_iff ys).mp hb))
    | obj hkvs hperm =>
      rename_i kvs₁ kvs₂ kvs₃
      rw [sortKeys_obj, sortKeys_obj]
      obtain ⟨hnd₁, hv₁⟩ := (nodupKeys_obj_iff kvs₁).mp ha
      obtain ⟨hnd₂, hv₂⟩ := (nodupKeys_obj_iff kvs₂).mp hb
      have hv₃ : ∀ p ∈ kvs₃, Json.nodupKeys p.2 = true := by
        intro p hp
        exact hv₂ p (hperm.subset hp)
      have H : ∀ p ∈ kvs₁, ∀ w, Json.Equiv p.2 w → Json.nodupKeys p.2 = true →
          Json.nodupKeys w = true → Json.sortKeys p.2 = Json.sortKeys w := by
        intro p hp w hpw hnp hnw
        have hlt : sizeOf p.2 < sizeOf (Json.obj kvs₁) := by
          have h1 := List.sizeOf_lt_of_mem hp
          have h2 : sizeOf p.2 < sizeOf p := by
            obtain ⟨k0, v0⟩ := p
            simp
          simp only [Json.obj.sizeOf_spec]
          omega
        exact IH (sizeOf p.2) (by omega) p.2 w le_rfl hpw hnp hnw
      have hmap : kvs₁.map (fun p => (p.1, Json.sortKeys p.2)) =
          kvs₃.map (fun p => (p.1, Json.sortKeys p.2)) :=
        map_sortKeys_eq_of_equivKVs hkvs H hv₁ hv₃
      have hndmap : ((kvs₁.map (fun p => (p.1, Json.sortKeys p.2))).map Prod.fst).Nodup := by
        have hfst : (kvs₁.map (fun p => (p.1, Json.sortKeys p.2))).map Prod.fst =
            kvs₁.map Prod.fst := by
          simp
        rw [hfst]
        exact hnd₁
      have hpermmap : (kvs₁.map (fun p => (p.1, Json.sortKeys p.2))).Perm
          (kvs₂.map (fun p => (p.1, Json.sortKeys p.2))) := by
        rw [hmap]
        exact hperm.map _
      exact congrArg Json.obj (insertionSort_eq_of_perm hpermmap hndmap)

/-- C4: two parsed requests that are equal as JSON values — identical
`mode`/`data`/`options` field values, irrespective of the order in which
object keys appeared in the wire text, at every nesting level — receive the
identical cache-key string from `json.dumps(req, sort_keys=True)`.
(Parsed requests always satisfy `nodupKeys`: `json.loads` keeps one entry
per key.) -/
theorem cache_key_stable_under_key_reordering
    (a b : Json) (heq : Json.Equiv a b)
    (ha : Json.nodupKeys a = true) (hb : Json.nodupKeys b = true) :
    Json.dumpsSorted a = Json.dumpsSorted b := by
  unfold Json.dumpsSorted
  rw [sortKeys_eq_of_equiv (sizeOf a) a b le_rfl heq ha hb]

theorem cache_key_stable_under_key_reordering_witness :
    Json.dumpsSorted
        (.obj [(("data"), .num 1), (("mode"), .num 2)]) =
      Json.dumpsSorted
        (.obj [(("mode"), .num 2), (("data"), .num 1)]) := by
  have heq : Json.Equiv
      (.obj [(("data"), .num 1), (("mode"), .num 2)])
      (.obj [(("mode"), .num 2), (("data"), .num 1)]) :=
    Json.Equiv.obj
      (Json.EquivKVs.cons (Json.Equiv.num 1)
        (Json.EquivKVs.cons (Json.Equiv.num 2) Json.EquivKVs.nil))
      (List.Perm.swap (("mode"), Json.num 2) (("data"), Json.num 1) [])
  have hnd1 : Json.nodupKeys (.obj [(("data"), Json.num 1), (("mode"), Json.num 2)]) = true := by
    apply (nodupKeys_obj_iff _).mpr
    refine ⟨by decide, ?_⟩
    intro p hp
    rcases List.mem_cons.mp hp with h | h
    · rw [h]
      simp [Json.nodupKeys]
    · rcases List.mem_cons.mp h with h' | h'
      · rw [h']
        simp [Json.nodupKeys]
      · simp at h'
  have hnd2 : Json.nodupKeys (.obj [(("mode"), Json.num 2), (("data"), Json.num 1)]) = true := by
    apply (nodupKeys_obj_iff _).mpr
    refine ⟨by decide, ?_⟩
    intro p hp
    rcases List.mem_cons.mp hp with h | h
    · rw [h]
      simp [Json.nodupKeys]
    · rcases List.mem_cons.mp h with h' | h'
      · rw [h']
        simp [Json.nodupKeys]
      · simp at h'
  exact cache_key_stable_under_key_reordering _ _ heq hnd1 hnd2
